import Mathlib

/-!
Verification of the attribute-matching engine of the Sistema_atributos
repository (`src/relatorios_app.py` and `src/app.py`).

The Python functions are shallowly embedded: pandas data frames become a
`Table` structure (ordered column names plus rows of cell values), pandas
cell values become `PyVal` (a string, an integer, or a missing value, the
missing value printing as "nan" exactly as `str(float('nan'))` does), and
the regular-expression search `re.search(r'\b' + re.escape(p) + r'\b', s)`
becomes an executable scan over all start positions testing the literal
pattern with a word-boundary check on both sides.

Modelling notes, faithful to the source:
* `str.lower` / `str.strip` are modelled on ASCII (plus pass-through of
  other characters); every concrete string evaluated in a theorem below
  only needs ASCII case mapping.
* Python's `\b` word characters are modelled as ASCII alphanumerics,
  the underscore, and all characters beyond ASCII; every non-ASCII
  character occurring in the repository's data is a letter, for which
  this agrees with Python's Unicode semantics.
* `DataFrame.groupby` with its default `sort=True` iterates the distinct
  keys in ascending lexicographic order (by code point), preserving the
  original row order inside each group; `groupTheConfig` below models
  exactly that with an insertion sort over the distinct keys.
* `df[c] = vals` overwrites the column `c` in place when it exists and
  appends a new last column otherwise; `setColVals` models that.
-/

namespace SistemaAtributos

/-- Python text, as a list of characters. -/
abbrev Str := List Char

/-- `str.lower` (ASCII case mapping; identity beyond ASCII, which agrees
with Python on every string this development evaluates). -/
def pyLower (s : Str) : Str := s.map Char.toLower

/-- The whitespace characters removed by Python's `str.strip()`. -/
def isPySpace (c : Char) : Bool :=
  c == ' ' || c == '\t' || c == '\n' || c == '\r' || c == '\x0b' || c == '\x0c'

/-- `str.strip()`: drop leading and trailing whitespace. -/
def pyTrim (s : Str) : Str :=
  ((s.dropWhile isPySpace).reverse.dropWhile isPySpace).reverse

/-- `str.split(',')`.  Python returns `['']` on the empty string and
`n + 1` fragments for `n` commas. -/
def splitComma : Str → List Str
  | [] => [[]]
  | c :: rest =>
    if c = ',' then [] :: splitComma rest
    else
      match splitComma rest with
      | [] => [[c]]
      | h :: t => (c :: h) :: t

/-- Word characters of the regular-expression metacharacter `\b`:
ASCII alphanumerics, underscore, and (as documented above) everything
beyond ASCII. -/
def wordChar (c : Char) : Bool :=
  c.isAlphanum || c == '_' || decide (127 < c.toNat)

/-- Whether position `i` of `s` holds a word character (out of range:
no). -/
def wcAt (s : Str) (i : Nat) : Bool :=
  match s[i]? with
  | some c => wordChar c
  | none => false

/-- Whether the position just before `i` holds a word character. -/
def wcBefore (s : Str) (i : Nat) : Bool :=
  match i with
  | 0 => false
  | j + 1 => wcAt s j

/-- The regular-expression `\b` assertion at position `i` of `s`: exactly
one of the two adjacent positions holds a word character. -/
def boundary (s : Str) (i : Nat) : Bool :=
  wcBefore s i != wcAt s i

/-- The literal pattern `p` occurs in `s` starting at position `i`. -/
def litAt (p s : Str) (i : Nat) : Bool :=
  (s.drop i).take p.length == p

/-- `re.search(r'\b' + re.escape(p) + r'\b', s) is not None`: some start
position carries the escaped literal with a word boundary on both sides. -/
def reSearchWB (p s : Str) : Bool :=
  (List.range (s.length + 1)).any fun i =>
    boundary s i && litAt p s i && boundary s (i + p.length)

/-- The Python substring test `p in s`. -/
def isSubstr (p s : Str) : Bool :=
  (List.range (s.length + 1)).any fun i => litAt p s i

/-- A pandas cell value: a string, an integer, or a missing value
(`NaN`). -/
inductive PyVal where
  | str (s : String)
  | int (n : Int)
  | vNone
  deriving DecidableEq, Repr

/-- Python `str(...)` on a cell value; `str(float('nan'))` is `"nan"`. -/
def pyStr : PyVal → String
  | .str s => s
  | .int n => toString n
  | .vNone => "nan"

/-- A compiled configuration rule: the `Variação` value emitted on a
match, and the keyword patterns derived from `Padrão de reconhecimento`. -/
structure Rule where
  variation : String
  patterns : List Str
  deriving DecidableEq, Repr

/-- Pattern list of `relatorios_app.processar_dados` (line 39):
`[p.strip().lower() for p in patterns_str.split(',')]` — empty fragments
are kept and filtered only at match time. -/
def patternsR (raw : String) : List Str :=
  (splitComma raw.data).map fun p => pyLower (pyTrim p)

/-- Pattern list of `app.processar_em_lotes_otimizado` (line 203) and
`app.processamento_direto_otimizado` (line 269):
`[p.strip().lower() for p in str(...).split(',') if p.strip()]` — empty
fragments are dropped when the rule is compiled. -/
def patternsA (raw : String) : List Str :=
  (splitComma raw.data).filterMap fun p =>
    if (pyTrim p).isEmpty then none else some (pyLower (pyTrim p))

/-- One pattern test of `relatorios_app.processar_dados` (lines 43-45):
`if pattern and pattern in descricao:` then
`if re.search(r'\b' + re.escape(pattern) + r'\b', descricao):`. -/
def matchStepR (descr p : Str) : Bool :=
  !p.isEmpty && isSubstr p descr && reSearchWB p descr

/-- One pattern test of the two `app.py` implementations (lines 236 and
293): the precompiled `compiled_pattern.search(descricao)`. -/
def matchStepA (descr p : Str) : Bool :=
  reSearchWB p descr

/-- The accumulation of matched variations for one record and one
attribute (source lines 34-48 of `relatorios_app.py`): rules are visited
in order; a rule whose first succeeding pattern fires appends its
variation unless that variation is already present.  The `break` in the
source only stops scanning further patterns of an already-matched rule,
so the observable effect of a rule is exactly `any` over its patterns. -/
def mvStep (step : Str → Str → Bool) (descr : Str) (acc : List String)
    (r : Rule) : List String :=
  if r.patterns.any (step descr) then
    if acc.contains r.variation then acc else acc ++ [r.variation]
  else acc

/-- Folding `mvStep` over the rules of one attribute, starting from the
empty accumulator, as the source's inner loop does. -/
def matchedVariations (step : Str → Str → Bool) (rules : List Rule)
    (descr : Str) : List String :=
  rules.foldl (mvStep step descr) []

/-- The output cell for one record and one attribute (source line 50):
`', '.join(matched_variations) if matched_variations else ''`. -/
def cellString (step : Str → Str → Bool) (rules : List Rule)
    (descr : Str) : String :=
  let l := matchedVariations step rules descr
  if l.isEmpty then "" else String.intercalate ", " l

/-! ## Tables (pandas data frames) -/

/-- A pandas data frame: an ordered list of column labels and the rows,
each row listing its cells in column order. -/
structure Table where
  cols : List String
  rows : List (List PyVal)
  deriving DecidableEq, Repr

/-- A well-formed frame: every row has one cell per column. -/
def Table.WF (t : Table) : Prop :=
  ∀ r ∈ t.rows, r.length = t.cols.length

instance (t : Table) : Decidable t.WF := by
  unfold Table.WF; infer_instance

/-- Index of a column label (first occurrence, as pandas label lookup). -/
def colIdx (cols : List String) (c : String) : Nat :=
  cols.indexOf c

/-- The cell of `row` under column `c` of `cols`. -/
def cellOf (cols : List String) (row : List PyVal) (c : String) : PyVal :=
  (row[colIdx cols c]?).getD .vNone

/-- Cell access on a table: row index, then column label. -/
def Table.cell (t : Table) (i : Nat) (c : String) : Option PyVal :=
  (t.rows[i]?).map fun r => cellOf t.cols r c

/-- `df[c] = vals` for a whole list of precomputed values, one per row
(positional, as assigning a Python list): overwrite the column in place
when the label exists, append a new last column otherwise. -/
def setColVals (t : Table) (c : String) (vals : List PyVal) : Table :=
  if t.cols.contains c then
    ⟨t.cols, List.zipWith (fun r v => r.set (colIdx t.cols c) v) t.rows vals⟩
  else
    ⟨t.cols ++ [c], List.zipWith (fun r v => r ++ [v]) t.rows vals⟩

/-- `df[c] = vals` where the value of each row is computed from the
frame's own current row (used by the batched implementation, which reads
each `lote` row after the previous attribute columns were added to it). -/
def setColByRow (t : Table) (c : String)
    (f : List String → List PyVal → PyVal) : Table :=
  if t.cols.contains c then
    ⟨t.cols, t.rows.map fun r => r.set (colIdx t.cols c) (f t.cols r)⟩
  else
    ⟨t.cols ++ [c], t.rows.map fun r => r ++ [f t.cols r]⟩

/-! ## Sorted grouping (pandas `groupby`) -/

/-- Strict character order by code point. -/
def charLtB (a b : Char) : Bool :=
  decide (a.toNat < b.toNat)

/-- Strict lexicographic order on text, by code point — the order pandas
uses to sort string group keys. -/
def lexLtB : Str → Str → Bool
  | [], [] => false
  | [], _ :: _ => true
  | _ :: _, [] => false
  | a :: as, b :: bs => charLtB a b || (a == b && lexLtB as bs)

/-- Strict lexicographic order on strings. -/
def strLtB (a b : String) : Bool :=
  lexLtB a.data b.data

/-- Insert a key into an ascending list (after every strictly smaller
element). -/
def insertKey (x : String) : List String → List String
  | [] => [x]
  | y :: ys => if strLtB y x then y :: insertKey x ys else x :: y :: ys

/-- Ascending insertion sort of group keys. -/
def sortStrs : List String → List String
  | [] => []
  | x :: xs => insertKey x (sortStrs xs)

/-- Distinct values in first-seen order. -/
def uniqueKeys (l : List String) : List String :=
  l.foldl (fun acc k => if acc.contains k then acc else acc ++ [k]) []

/-- The `Atributo` cell of a configuration row, as text. -/
def attrTextOf (cols : List String) (row : List PyVal) : String :=
  pyStr (cellOf cols row "Atributo")

/-- The distinct `Atributo` values of the configuration table in the
order `config_df.groupby('Atributo')` iterates them: ascending sorted
order (pandas `groupby` defaults to `sort=True`). -/
def attrKeys (config : Table) : List String :=
  sortStrs (uniqueKeys (config.rows.map (attrTextOf config.cols)))

/-- The rule compiled from one configuration row: its `Variação` text and
the pattern list derived from its `Padrão de reconhecimento` text. -/
def ruleOfRow (parse : String → List Str) (cols : List String)
    (row : List PyVal) : Rule :=
  ⟨pyStr (cellOf cols row "Variação"),
   parse (pyStr (cellOf cols row "Padrão de reconhecimento"))⟩

/-- `config_df.groupby('Atributo')`: the distinct attributes in sorted
order, each with its rules compiled from the group's rows in original
row order. -/
def groupTheConfig (parse : String → List Str) (config : Table) :
    List (String × List Rule) :=
  (attrKeys config).map fun k =>
    (k, (config.rows.filter fun r => attrTextOf config.cols r == k).map
          (ruleOfRow parse config.cols))

/-- The lowercased description text of a data row:
`str(data_row['Descrição']).lower()`. -/
def descrText (cols : List String) (row : List PyVal) : Str :=
  pyLower (pyStr (cellOf cols row "Descrição")).data

/-- The derived cell of one attribute group for one row, with the
matching step of `relatorios_app.processar_dados`. -/
def attrValR (dcols : List String) (ar : String × List Rule)
    (row : List PyVal) : PyVal :=
  .str (cellString matchStepR ar.2 (descrText dcols row))

/-- The derived cell of one attribute group for one row, with the
precompiled matching step of the two `app.py` implementations. -/
def attrValA (dcols : List String) (ar : String × List Rule)
    (row : List PyVal) : PyVal :=
  .str (cellString matchStepA ar.2 (descrText dcols row))

/-! ## The three processing functions -/

/-- Required data columns (`relatorios_app.py` line 10). -/
def requiredDataCols : List String := ["ID", "Descrição"]

/-- Required configuration columns (`relatorios_app.py` line 11). -/
def requiredConfigCols : List String :=
  ["Atributo", "Variação", "Padrão de reconhecimento"]

/-- `relatorios_app.processar_dados`: validate the two schemas, then for
each attribute group (in `groupby` order) append the column of joined
matched variations, computed from the original data rows. -/
def processar_dados (data_df config_df : Table) : Except String Table :=
  if requiredDataCols.all (fun c => data_df.cols.contains c) then
    if requiredConfigCols.all (fun c => config_df.cols.contains c) then
      .ok ((groupTheConfig patternsR config_df).foldl
        (fun acc ar =>
          setColVals acc ar.1 (data_df.rows.map (attrValR data_df.cols ar)))
        data_df)
    else
      .error "Planilha de configurações deve conter as colunas: Atributo, Variação, Padrão de reconhecimento"
  else
    .error "Planilha de dados deve conter as colunas: ID, Descrição"

/-- The start offsets `range(0, total, step)` of the Python slice loops. -/
def sliceStarts (total step : Nat) : List Nat :=
  (List.range ((total + step - 1) / step)).map fun i => i * step

/-- The consecutive windows `l[i:i+n]` taken by the Python batch loops. -/
def chunksOf (n : Nat) (l : List α) : List (List α) :=
  (sliceStarts l.length n).map fun i => (l.drop i).take n

/-- `app.processamento_direto_otimizado`: same sorted grouping, patterns
compiled with empty fragments dropped, each attribute column computed
from the original data rows (internally in windows of 1000 rows, which
only shapes the iteration) and attached to a copy of the input. -/
def processamento_direto_otimizado (data_df config_df : Table) : Table :=
  (groupTheConfig patternsA config_df).foldl
    (fun acc ar =>
      setColVals acc ar.1
        ((chunksOf 1000 data_df.rows).flatMap fun chunk =>
          chunk.map (attrValA data_df.cols ar)))
    data_df

/-- Processing of one batch inside `app.processar_em_lotes_otimizado`:
the attribute columns are added to the batch one after the other, and
each column is computed by iterating the rows of the batch as they stand
at that moment — the source iterates `lote`, to which the previous
attribute columns were already attached. -/
def processLote (cfg : List (String × List Rule)) (lote : Table) : Table :=
  cfg.foldl
    (fun acc ar => setColByRow acc ar.1 (fun cols row => attrValA cols ar row))
    lote

/-- `pd.concat(resultados, ignore_index=True)` over the processed
batches — all carrying the same columns — preceded by the source's
`if resultados:` guard, whose `else` branch yields the empty
`pd.DataFrame()` with no columns at all. -/
def concatTables : List Table → Table
  | [] => ⟨[], []⟩
  | t :: ts => ⟨t.cols, (t :: ts).flatMap Table.rows⟩

/-- `app.processar_em_lotes_otimizado` (without a timeout interruption):
slice the data into windows of `tamanho_lote` rows, process each window
fully, and concatenate the results in order. -/
def processar_em_lotes_otimizado (data_df config_df : Table)
    (tamanho_lote : Nat) : Table :=
  concatTables ((chunksOf tamanho_lote data_df.rows).map fun rs =>
    processLote (groupTheConfig patternsA config_df) ⟨data_df.cols, rs⟩)

/-! ## Concrete tables used by the example theorems -/

/-- The data row of the spec's example scenario (§8). -/
def specExampleData : Table :=
  ⟨["ID", "Descrição"],
   [[.int 1414, .str "Ventilador de teto 110 amarelo biv"]]⟩

/-- The three configuration rows of the spec's example scenario (§8). -/
def specExampleConfig : Table :=
  ⟨["Atributo", "Variação", "Padrão de reconhecimento"],
   [[.str "Voltagem", .str "110v", .str "110,110v,127"],
    [.str "Voltagem", .str "Bivolt", .str "bivolt,biv"],
    [.str "Cor", .str "Amarelo", .str "amarelo,yellow"]]⟩

/-- A data table whose single record has a missing (`NaN`) description. -/
def nullDescData : Table :=
  ⟨["ID", "Descrição"], [[.int 1, .vNone]]⟩

/-- A configuration whose single pattern is the word `nan` — the text a
missing description coerces to. -/
def nanPatternConfig : Table :=
  ⟨["Atributo", "Variação", "Padrão de reconhecimento"],
   [[.str "A", .str "NanV", .str "nan"]]⟩

/-- A data table with a pass-through column `Extra`. -/
def collisionData : Table :=
  ⟨["ID", "Descrição", "Extra"], [[.int 1, .str "x", .str "orig"]]⟩

/-- A configuration whose attribute is named like the data column
`Extra`. -/
def collisionConfig : Table :=
  ⟨["Atributo", "Variação", "Padrão de reconhecimento"],
   [[.str "Extra", .str "V", .str "x"]]⟩

/-- A data table with the required columns and no rows at all. -/
def emptyRowsData : Table :=
  ⟨["ID", "Descrição"], []⟩

/-! ## C3 — the spec's example scenario -/

/-- C3: on the spec's example scenario, `processar_dados` succeeds and
returns the input row with `Voltagem = "110v, Bivolt"` and
`Cor = "Amarelo"`, the `ID` and `Descrição` cells unchanged, and exactly
one row. -/
theorem spec_C3 :
    ((processar_dados specExampleData specExampleConfig).toOption.bind
        fun t => t.cell 0 "Voltagem") = some (.str "110v, Bivolt")
  ∧ ((processar_dados specExampleData specExampleConfig).toOption.bind
        fun t => t.cell 0 "Cor") = some (.str "Amarelo")
  ∧ ((processar_dados specExampleData specExampleConfig).toOption.bind
        fun t => t.cell 0 "ID") = some (.int 1414)
  ∧ ((processar_dados specExampleData specExampleConfig).toOption.bind
        fun t => t.cell 0 "Descrição")
      = some (.str "Ventilador de teto 110 amarelo biv")
  ∧ ((processar_dados specExampleData specExampleConfig).toOption.map
        fun t => t.rows.length) = some 1 := by
  decide

/-! ## C10 — determinism -/

/-- C10: `processar_dados` is a pure function of its two input tables —
two invocations on equal inputs return equal result tables.  The embedded
function reads no state beyond its arguments, exactly as the source
function touches no ambient state. -/
theorem spec_C10 (d₁ d₂ c₁ c₂ : Table) (hd : d₁ = d₂) (hc : c₁ = c₂) :
    processar_dados d₁ c₁ = processar_dados d₂ c₂ := by
  subst hd; subst hc; rfl

/-- Witness for C10 at the spec's example scenario. -/
theorem spec_C10_witness :
    processar_dados specExampleData specExampleConfig
      = processar_dados specExampleData specExampleConfig :=
  spec_C10 specExampleData specExampleData specExampleConfig
    specExampleConfig rfl rfl

/-! ## C7 — schema validation -/

/-- `l.contains a` decides membership. -/
theorem contains_iff_mem (l : List String) (a : String) :
    l.contains a = true ↔ a ∈ l := by
  simp [List.contains, List.elem_iff]

/-- `List.all` of the membership tests decides required-column presence. -/
theorem allContains_iff (req cols : List String) :
    req.all (fun x => cols.contains x) = true ↔ ∀ x ∈ req, x ∈ cols := by
  rw [List.all_eq_true]
  constructor
  · intro h x hx; exact (contains_iff_mem cols x).mp (h x hx)
  · intro h x hx; exact (contains_iff_mem cols x).mpr (h x hx)

/-- With all required columns present, `processar_dados` returns a
table. -/
theorem processar_dados_isOk (d c : Table)
    (h1 : ∀ x ∈ requiredDataCols, x ∈ d.cols)
    (h2 : ∀ x ∈ requiredConfigCols, x ∈ c.cols) :
    ∃ t, processar_dados d c = Except.ok t := by
  unfold processar_dados
  rw [if_pos ((allContains_iff _ _).mpr h1),
    if_pos ((allContains_iff _ _).mpr h2)]
  exact ⟨_, rfl⟩

/-- C7: `processar_dados` returns its schema error exactly when one of
the five required columns is absent, and the error is decided by the two
column lists alone — no row is consulted, and no result table is
produced (the `Except` value carries either the error or the table,
never both).  With all required columns present it returns a table. -/
theorem spec_C7 (d c : Table) :
    ((∃ e, processar_dados d c = Except.error e) ↔
      ¬ ((∀ x ∈ requiredDataCols, x ∈ d.cols) ∧
         (∀ x ∈ requiredConfigCols, x ∈ c.cols)))
  ∧ (((∀ x ∈ requiredDataCols, x ∈ d.cols) ∧
      (∀ x ∈ requiredConfigCols, x ∈ c.cols)) →
        ∃ t, processar_dados d c = Except.ok t) := by
  constructor
  · constructor
    · rintro ⟨e, he⟩ ⟨h1, h2⟩
      unfold processar_dados at he
      rw [if_pos ((allContains_iff _ _).mpr h1),
        if_pos ((allContains_iff _ _).mpr h2)] at he
      exact Except.noConfusion he
    · intro h
      unfold processar_dados
      by_cases h1 : requiredDataCols.all (fun x => d.cols.contains x) = true
      · by_cases h2 : requiredConfigCols.all (fun x => c.cols.contains x) = true
        · exact absurd ⟨(allContains_iff _ _).mp h1, (allContains_iff _ _).mp h2⟩ h
        · rw [if_pos h1, if_neg h2]; exact ⟨_, rfl⟩
      · rw [if_neg h1]; exact ⟨_, rfl⟩
  · rintro ⟨h1, h2⟩
    exact processar_dados_isOk d c h1 h2

/-- Witness for C7: with all five required columns present, the example
run produces a table. -/
theorem spec_C7_witness :
    ∃ t, processar_dados specExampleData specExampleConfig = Except.ok t :=
  (spec_C7 specExampleData specExampleConfig).2 (by decide)

/-! ## C1 — column order: counterexample -/

/-- Counterexample to C1 as stated.  In the spec's example configuration
the distinct attributes occur in the order `Voltagem`, `Cor`; the claim
requires the derived columns in that first-seen order, i.e. column list
`["ID", "Descrição", "Voltagem", "Cor"]`.  The code instead iterates
`groupby` keys in ascending sorted order, appending `Cor` before
`Voltagem` — in both `processar_dados` and
`processamento_direto_otimizado`. -/
theorem spec_C1_counterexample :
    ((processar_dados specExampleData specExampleConfig).toOption.map
        Table.cols) ≠ some ["ID", "Descrição", "Voltagem", "Cor"]
  ∧ ((processar_dados specExampleData specExampleConfig).toOption.map
        Table.cols) = some ["ID", "Descrição", "Cor", "Voltagem"]
  ∧ (processamento_direto_otimizado specExampleData specExampleConfig).cols
      = ["ID", "Descrição", "Cor", "Voltagem"] := by
  decide

/-! ## C2 — missing description: counterexample -/

/-- Counterexample to C2 as stated.  A missing description coerces to the
text `"nan"`, so a configured pattern `"nan"` does match it: the derived
cell holds `"NanV"`, not the empty string — the "regardless of the
configured patterns" part of the claim fails. -/
theorem spec_C2_counterexample :
    ((processar_dados nullDescData nanPatternConfig).toOption.bind
        fun t => t.cell 0 "A") = some (.str "NanV")
  ∧ PyVal.str "NanV" ≠ PyVal.str "" := by
  decide

/-! ## C9 — pass-through columns: counterexample -/

/-- Counterexample to C9 as stated.  An attribute named like an existing
data column (`Extra`) overwrites that column in place: the original cell
value `"orig"` is replaced by the match result `"V"`. -/
theorem spec_C9_counterexample :
    ((processar_dados collisionData collisionConfig).toOption.bind
        fun t => t.cell 0 "Extra") = some (.str "V")
  ∧ collisionData.cell 0 "Extra" = some (.str "orig")
  ∧ PyVal.str "V" ≠ PyVal.str "orig" := by
  decide

/-! ## C8 — batched versus direct: counterexample -/

/-- Counterexample to C8 as stated.  On a data table with zero rows the
batch loop never runs and the batched implementation yields the empty
`pd.DataFrame()` — a table with no columns at all — while the direct
implementation returns the zero-row table with the original and derived
columns.  The batch size 2 is positive, as the claim requires. -/
theorem spec_C8_counterexample :
    processar_em_lotes_otimizado emptyRowsData nanPatternConfig 2
      ≠ processamento_direto_otimizado emptyRowsData nanPatternConfig
  ∧ (processar_em_lotes_otimizado emptyRowsData nanPatternConfig 2).cols = []
  ∧ (processamento_direto_otimizado emptyRowsData nanPatternConfig).cols
      = ["ID", "Descrição", "A"] := by
  decide

/-! ## C4 — word-boundary matching -/

/-- `litAt` as a propositional equation. -/
theorem litAt_iff (p s : Str) (i : Nat) :
    litAt p s i = true ↔ (s.drop i).take p.length = p := by
  simp [litAt]

/-- A nonempty literal occurrence starts strictly inside the text. -/
theorem occurrence_lt (p s : Str) (hp : p ≠ []) (i : Nat)
    (h : (s.drop i).take p.length = p) : i < s.length := by
  by_contra hge
  push_neg at hge
  rw [List.drop_eq_nil_iff.mpr hge] at h
  simp at h
  exact hp h

/-- The word-bounded regular-expression search succeeds exactly when the
literal pattern occurs somewhere with a `\b` boundary on both sides. -/
theorem reSearchWB_iff (p s : Str) (hp : p ≠ []) :
    reSearchWB p s = true ↔
      ∃ i, boundary s i = true ∧ (s.drop i).take p.length = p ∧
        boundary s (i + p.length) = true := by
  unfold reSearchWB
  rw [List.any_eq_true]
  constructor
  · rintro ⟨i, _, hi⟩
    rw [Bool.and_eq_true, Bool.and_eq_true] at hi
    exact ⟨i, hi.1.1, (litAt_iff p s i).mp hi.1.2, hi.2⟩
  · rintro ⟨i, h1, h2, h3⟩
    refine ⟨i, List.mem_range.mpr (Nat.lt_succ_of_lt (occurrence_lt p s hp i h2)), ?_⟩
    rw [Bool.and_eq_true, Bool.and_eq_true]
    exact ⟨⟨h1, (litAt_iff p s i).mpr h2⟩, h3⟩

/-- The matching step of `processar_dados` succeeds exactly on a
word-bounded occurrence (for a nonempty pattern). -/
theorem matchStepR_iff (d p : Str) (hp : p ≠ []) :
    matchStepR d p = true ↔
      ∃ i, boundary d i = true ∧ (d.drop i).take p.length = p ∧
        boundary d (i + p.length) = true := by
  unfold matchStepR
  rw [Bool.and_eq_true, Bool.and_eq_true]
  constructor
  · intro h
    exact (reSearchWB_iff p d hp).mp h.2
  · intro hex
    refine ⟨⟨?_, ?_⟩, (reSearchWB_iff p d hp).mpr hex⟩
    · cases p with
      | nil => exact absurd rfl hp
      | cons c cs => rfl
    · rcases hex with ⟨i, _, h2, _⟩
      unfold isSubstr
      rw [List.any_eq_true]
      exact ⟨i, List.mem_range.mpr (Nat.lt_succ_of_lt (occurrence_lt p d hp i h2)),
        (litAt_iff p d i).mpr h2⟩

/-- C4: the matching step used by `processar_dados` accepts a (nonempty)
pattern exactly when it occurs in the description delimited by `\b` word
boundaries on both sides — not merely as a substring — and the
lowercasing pipeline makes it case-insensitive.  Concretely: `"led"`
does not match `"fornecedor"`, `"led"` does match `"Lâmpada LED 12W"`
after lowering, and `"led"` occurs in `"sledge"` as a substring yet does
not match. -/
theorem spec_C4 :
    (∀ (p d : Str), p ≠ [] →
      (matchStepR d p = true ↔
        ∃ i, boundary d i = true ∧ (d.drop i).take p.length = p ∧
          boundary d (i + p.length) = true))
  ∧ matchStepR (pyLower "fornecedor".data) "led".data = false
  ∧ matchStepR (pyLower "Lâmpada LED 12W".data) "led".data = true
  ∧ isSubstr "led".data "sledge".data = true
  ∧ matchStepR "sledge".data "led".data = false := by
  refine ⟨fun p d hp => matchStepR_iff d p hp, ?_, ?_, ?_, ?_⟩ <;> decide

/-- Witness for C4: the general word-boundary equivalence, instantiated
at the pattern `"led"` and the lowered description `"Lâmpada LED 12W"`. -/
theorem spec_C4_witness :
    matchStepR (pyLower "Lâmpada LED 12W".data) "led".data = true ↔
      ∃ i, boundary (pyLower "Lâmpada LED 12W".data) i = true ∧
        ((pyLower "Lâmpada LED 12W".data).drop i).take "led".data.length
          = "led".data ∧
        boundary (pyLower "Lâmpada LED 12W".data) (i + "led".data.length)
          = true :=
  spec_C4.1 "led".data (pyLower "Lâmpada LED 12W".data) (by decide)

/-! ## C5 — deduplication and joining -/

/-- Folding the rule step preserves distinctness of the accumulator. -/
theorem mvFold_nodup (step : Str → Str → Bool) (d : Str) :
    ∀ (rules : List Rule) (acc : List String), acc.Nodup →
      (rules.foldl (mvStep step d) acc).Nodup := by
  intro rules
  induction rules with
  | nil => intro acc h; exact h
  | cons r rs ih =>
    intro acc h
    show (rs.foldl (mvStep step d) (mvStep step d acc r)).Nodup
    apply ih
    unfold mvStep
    split
    · split
      · exact h
      · rename_i hc
        have hv : r.variation ∉ acc := fun hm =>
          hc ((contains_iff_mem acc r.variation).mpr hm)
        simp [List.nodup_append, h, hv]
    · exact h

/-- Folding the rule step never removes accumulator members. -/
theorem mvFold_mem_mono (step : Str → Str → Bool) (d : Str) :
    ∀ (rules : List Rule) (acc : List String) (v : String), v ∈ acc →
      v ∈ rules.foldl (mvStep step d) acc := by
  intro rules
  induction rules with
  | nil => intro acc v h; exact h
  | cons r rs ih =>
    intro acc v h
    apply ih
    unfold mvStep
    split
    · split
      · exact h
      · exact List.mem_append_left _ h
    · exact h

/-- A matching rule's variation ends up in the accumulated list. -/
theorem mvFold_mem_of_match (step : Str → Str → Bool) (d : Str) :
    ∀ (rules : List Rule) (acc : List String) (r : Rule), r ∈ rules →
      r.patterns.any (step d) = true →
      r.variation ∈ rules.foldl (mvStep step d) acc := by
  intro rules
  induction rules with
  | nil => intro acc r h; exact absurd h (List.not_mem_nil r)
  | cons r' rs ih =>
    intro acc r hmem hmatch
    rcases List.mem_cons.mp hmem with heq | htail
    · subst heq
      rw [List.foldl_cons]
      apply mvFold_mem_mono step d rs (mvStep step d acc r) r.variation
      unfold mvStep
      rw [if_pos hmatch]
      split
      · rename_i hc
        exact (contains_iff_mem acc r.variation).mp hc
      · exact List.mem_append_right _ (List.mem_singleton.mpr rfl)
    · exact ih _ r htail hmatch

/-- C5: for any matching step (both implementations use one), the list of
matched variations of one record and one attribute is duplicate-free;
the variation of every matching rule appears in it exactly once; and the
output cell is its `", "`-join, the empty string when nothing matched. -/
theorem spec_C5 (step : Str → Str → Bool) (rules : List Rule) (d : Str) :
    (matchedVariations step rules d).Nodup
  ∧ (∀ r ∈ rules, r.patterns.any (step d) = true →
      (matchedVariations step rules d).count r.variation = 1)
  ∧ cellString step rules d =
      (if (matchedVariations step rules d).isEmpty then ""
       else String.intercalate ", " (matchedVariations step rules d)) := by
  refine ⟨mvFold_nodup step d rules [] List.nodup_nil, ?_, rfl⟩
  intro r hr hmatch
  exact List.count_eq_one_of_mem (mvFold_nodup step d rules [] List.nodup_nil)
    (mvFold_mem_of_match step d rules [] r hr hmatch)

/-- Witness for C5: two rules under one attribute share the variation
`"X"`, both match the description `"biv 110"`, and `"X"` appears exactly
once in the matched list. -/
theorem spec_C5_witness :
    (matchedVariations matchStepR
      [⟨"X", patternsR "110"⟩, ⟨"X", patternsR "biv"⟩]
      (pyLower "biv 110".data)).count "X" = 1 :=
  (spec_C5 matchStepR [⟨"X", patternsR "110"⟩, ⟨"X", patternsR "biv"⟩]
      (pyLower "biv 110".data)).2.1
    ⟨"X", patternsR "110"⟩ (by decide) (by decide)

/-! ## C6 — empty or comma-only pattern cells -/

/-- A rule whose step never fires leaves the accumulated fold unchanged
wherever it is placed in the rule list. -/
theorem mvFold_erase_inert (step : Str → Str → Bool) (d : Str) (r : Rule)
    (hr : r.patterns.any (step d) = false) (l₁ l₂ : List Rule) :
    matchedVariations step (l₁ ++ r :: l₂) d
      = matchedVariations step (l₁ ++ l₂) d := by
  unfold matchedVariations
  rw [List.foldl_append, List.foldl_append, List.foldl_cons]
  have : mvStep step d (l₁.foldl (mvStep step d) []) r
      = l₁.foldl (mvStep step d) [] := by
    unfold mvStep
    rw [hr]
    simp
  rw [this]

/-- C6: a configuration row whose pattern cell splits into fragments that
are all empty after trimming — such as `""` or `",,"` — yields a rule
that never matches any description in `processar_dados`, is compiled to
an empty pattern list by the `app.py` implementations, contributes no
variation to any record's cell in either matching step, and causes no
error: with the required columns present, `processar_dados` still
returns a table. -/
theorem spec_C6 (raw : String)
    (hraw : ∀ p ∈ splitComma raw.data, pyTrim p = []) :
    (∀ d : Str, (patternsR raw).any (matchStepR d) = false)
  ∧ patternsA raw = []
  ∧ (∀ (v : String) (d : Str) (l₁ l₂ : List Rule),
      matchedVariations matchStepR (l₁ ++ ⟨v, patternsR raw⟩ :: l₂) d
        = matchedVariations matchStepR (l₁ ++ l₂) d)
  ∧ (∀ (v : String) (d : Str) (l₁ l₂ : List Rule),
      matchedVariations matchStepA (l₁ ++ ⟨v, patternsA raw⟩ :: l₂) d
        = matchedVariations matchStepA (l₁ ++ l₂) d)
  ∧ (∀ data config : Table,
      (∀ x ∈ requiredDataCols, x ∈ data.cols) →
      (∀ x ∈ requiredConfigCols, x ∈ config.cols) →
      ∃ t, processar_dados data config = Except.ok t) := by
  have hanyR : ∀ d : Str, (patternsR raw).any (matchStepR d) = false := by
    intro d
    rw [List.any_eq_false]
    intro p hp
    rcases List.mem_map.mp hp with ⟨q, hq, rfl⟩
    rw [hraw q hq]
    intro hfalse
    exact Bool.noConfusion hfalse
  have hA : patternsA raw = [] := by
    unfold patternsA
    rw [List.filterMap_eq_nil_iff]
    intro p hp
    rw [hraw p hp]
    rfl
  refine ⟨hanyR, hA, ?_, ?_, ?_⟩
  · intro v d l₁ l₂
    exact mvFold_erase_inert matchStepR d ⟨v, patternsR raw⟩ (hanyR d) l₁ l₂
  · intro v d l₁ l₂
    refine mvFold_erase_inert matchStepA d ⟨v, patternsA raw⟩ ?_ l₁ l₂
    rw [hA]
    rfl
  · intro data config h1 h2
    exact processar_dados_isOk data config h1 h2

/-- Witness for C6 at the comma-only pattern cell `",,"`. -/
theorem spec_C6_witness :
    (patternsR ",,").any (matchStepR (pyLower "Ventilador 110".data)) = false
  ∧ patternsA ",," = [] :=
  ⟨(spec_C6 ",," (by decide)).1 (pyLower "Ventilador 110".data),
   (spec_C6 ",," (by decide)).2.1⟩

/-! ## Row-wise characterization of the column pipelines -/

/-- The column-label effect of one `df[a] = ...` assignment. -/
def stepCols (cols : List String) (a : String) : List String :=
  if cols.contains a then cols else cols ++ [a]

/-- The single-row effect of one `df[a] = ...` assignment. -/
def stepRow (cols : List String) (row : List PyVal) (a : String)
    (v : PyVal) : List PyVal :=
  if cols.contains a then row.set (colIdx cols a) v else row ++ [v]

/-- Column labels after a whole attribute pipeline. -/
def foldCols (cfg : List (String × List Rule)) (cols : List String) :
    List String :=
  cfg.foldl (fun cs ar => stepCols cs ar.1) cols

/-- Per-row state fold for the implementations that compute every cell
from the original row. -/
def rowStepO (g : String × List Rule → List PyVal → PyVal)
    (row₀ : List PyVal) (st : List String × List PyVal)
    (ar : String × List Rule) : List String × List PyVal :=
  (stepCols st.1 ar.1, stepRow st.1 st.2 ar.1 (g ar row₀))

/-- Per-row state fold for the batch implementation, which reads the row
as already extended by the previously added attribute columns. -/
def rowStepL (st : List String × List PyVal) (ar : String × List Rule) :
    List String × List PyVal :=
  (stepCols st.1 ar.1, stepRow st.1 st.2 ar.1 (attrValA st.1 ar st.2))

/-- One positional column assignment, described row by row. -/
theorem setColVals_char (cols : List String) (a : String)
    (rows₀ : List (List PyVal)) (h : List PyVal → List PyVal)
    (f : List PyVal → PyVal) :
    setColVals ⟨cols, rows₀.map h⟩ a (rows₀.map f)
      = ⟨stepCols cols a, rows₀.map fun r => stepRow cols (h r) a (f r)⟩ := by
  by_cases hm : a ∈ cols <;>
    simp [setColVals, stepCols, stepRow, contains_iff_mem, hm,
      List.zipWith_map, List.zipWith_same]

/-- One per-current-row column assignment, described row by row. -/
theorem setColByRow_char (cols : List String) (a : String)
    (rows : List (List PyVal)) (f : List String → List PyVal → PyVal) :
    setColByRow ⟨cols, rows⟩ a f
      = ⟨stepCols cols a, rows.map fun r => stepRow cols r a (f cols r)⟩ := by
  by_cases hm : a ∈ cols <;>
    simp [setColByRow, stepCols, stepRow, contains_iff_mem, hm]

/-- The attribute pipeline over positional column assignments equals a
per-row fold, each row's cells computed from that original row. -/
theorem foldl_setColVals_char
    (g : String × List Rule → List PyVal → PyVal) :
    ∀ (cfg : List (String × List Rule)) (cols : List String)
      (rows₀ : List (List PyVal)) (h : List PyVal → List PyVal),
    cfg.foldl (fun acc ar => setColVals acc ar.1 (rows₀.map (g ar)))
        ⟨cols, rows₀.map h⟩
      = ⟨foldCols cfg cols,
         rows₀.map fun row => (cfg.foldl (rowStepO g row) (cols, h row)).2⟩ := by
  intro cfg
  induction cfg with
  | nil =>
    intro cols rows₀ h
    simp [foldCols]
  | cons ar cfg ih =>
    intro cols rows₀ h
    rw [List.foldl_cons, setColVals_char cols ar.1 rows₀ h (g ar),
      ih (stepCols cols ar.1) rows₀
        (fun r => stepRow cols (h r) ar.1 (g ar r))]
    rfl

/-- `processar_dados`, row by row, on a valid schema. -/
theorem processar_dados_char (data config : Table)
    (h1 : ∀ x ∈ requiredDataCols, x ∈ data.cols)
    (h2 : ∀ x ∈ requiredConfigCols, x ∈ config.cols) :
    processar_dados data config = Except.ok
      ⟨foldCols (groupTheConfig patternsR config) data.cols,
       data.rows.map fun row =>
         ((groupTheConfig patternsR config).foldl
           (rowStepO (attrValR data.cols) row) (data.cols, row)).2⟩ := by
  unfold processar_dados
  rw [if_pos ((allContains_iff _ _).mpr h1),
    if_pos ((allContains_iff _ _).mpr h2)]
  have := foldl_setColVals_char (attrValR data.cols)
    (groupTheConfig patternsR config) data.cols data.rows id
  rw [List.map_id] at this
  exact congrArg Except.ok this

/-! ## Window slicing (`range(0, total, step)`) -/

/-- `sliceStarts` of an empty total is empty. -/
theorem sliceStarts_zero (step : Nat) : sliceStarts 0 step = [] := by
  unfold sliceStarts
  cases step with
  | zero => rfl
  | succ k =>
    rw [Nat.div_eq_of_lt (by omega)]
    rfl

/-- `chunksOf` of the empty list is empty. -/
theorem chunksOf_nil (n : Nat) : chunksOf n ([] : List α) = [] := by
  unfold chunksOf
  rw [List.length_nil, sliceStarts_zero]
  rfl

/-- The ceiling-division recurrence behind the slice loop. -/
theorem ceilDiv_succ (len n : Nat) (hl : 0 < len) (hn : 0 < n) :
    (len + n - 1) / n = ((len - n) + n - 1) / n + 1 := by
  rcases le_or_lt len n with hle | hlt
  · have h0 : len - n = 0 := by omega
    rw [h0]
    have hr : (0 + n - 1) / n = 0 := Nat.div_eq_of_lt (by omega)
    rw [hr]
    have hl2 : len + n - 1 = (len - 1) + n := by omega
    rw [hl2, Nat.add_div_right _ hn, Nat.div_eq_of_lt (by omega)]
  · have hl2 : len + n - 1 = ((len - n) + n - 1) + n := by omega
    rw [hl2, Nat.add_div_right _ hn]

/-- Unfolding one window from a nonempty slice loop. -/
theorem chunksOf_cons (n : Nat) (hn : 0 < n) (l : List α) (hl : l ≠ []) :
    chunksOf n l = l.take n :: chunksOf n (l.drop n) := by
  have hlen : 0 < l.length := List.length_pos.mpr hl
  unfold chunksOf sliceStarts
  rw [List.length_drop, ceilDiv_succ l.length n hlen hn,
    List.range_succ_eq_map]
  simp only [List.map_cons, List.map_map]
  congr 1
  · simp
  · apply List.map_congr_left
    intro i _
    simp only [Function.comp_apply]
    rw [List.drop_drop, Nat.succ_mul, Nat.add_comm (i * n) n]

/-- Mapping a function over the rows window by window is mapping it over
all the rows. -/
theorem chunksOf_flatMap_map (n : Nat) (hn : 0 < n) (f : α → β)
    (l : List α) :
    (chunksOf n l).flatMap (fun c => c.map f) = l.map f := by
  by_cases hl : l = []
  · subst hl
    rw [chunksOf_nil]
    rfl
  · rw [chunksOf_cons n hn l hl, List.flatMap_cons,
      chunksOf_flatMap_map n hn f (l.drop n), ← List.map_append,
      List.take_append_drop]
termination_by l.length
decreasing_by
  have : l.length ≠ 0 := fun h0 => hl (List.length_eq_zero.mp h0)
  rw [List.length_drop]
  omega

/-- `processamento_direto_otimizado`, row by row. -/
theorem direto_char (data config : Table) :
    processamento_direto_otimizado data config
      = ⟨foldCols (groupTheConfig patternsA config) data.cols,
         data.rows.map fun row =>
           ((groupTheConfig patternsA config).foldl
             (rowStepO (attrValA data.cols) row) (data.cols, row)).2⟩ := by
  unfold processamento_direto_otimizado
  simp only [chunksOf_flatMap_map 1000 (by omega)]
  have := foldl_setColVals_char (attrValA data.cols)
    (groupTheConfig patternsA config) data.cols data.rows id
  rw [List.map_id] at this
  exact this

/-- `processLote`, row by row. -/
theorem processLote_char :
    ∀ (cfg : List (String × List Rule)) (cols : List String)
      (rows : List (List PyVal)),
    processLote cfg ⟨cols, rows⟩
      = ⟨foldCols cfg cols,
         rows.map fun row => (cfg.foldl rowStepL (cols, row)).2⟩ := by
  intro cfg
  induction cfg with
  | nil =>
    intro cols rows
    simp [processLote, foldCols]
  | cons ar cfg ih =>
    intro cols rows
    unfold processLote at ih ⊢
    rw [List.foldl_cons,
      setColByRow_char cols ar.1 rows (fun cols row => attrValA cols ar row),
      ih (stepCols cols ar.1)
        (rows.map fun r => stepRow cols r ar.1 (attrValA cols ar r)),
      List.map_map]
    rfl

/-! ## Cell-preservation invariants -/

/-- A label already present keeps its index when columns are appended. -/
theorem colIdx_append (cols ext : List String) (c : String)
    (hc : c ∈ cols) : colIdx (cols ++ ext) c = colIdx cols c := by
  unfold colIdx
  induction cols with
  | nil => exact absurd hc (List.not_mem_nil c)
  | cons x xs ih =>
    rw [List.cons_append, List.indexOf_cons, List.indexOf_cons]
    by_cases hx : x = c
    · rw [hx]
      simp
    · have hxc : (x == c) = false := by simp [hx]
      rw [hxc]
      simp only [cond_false]
      rcases List.mem_cons.mp hc with heq | htail
      · exact absurd heq.symm hx
      · rw [ih htail]

/-- The index of a present label is in range. -/
theorem colIdx_lt (cols : List String) (c : String) (hc : c ∈ cols) :
    colIdx cols c < cols.length :=
  List.indexOf_lt_length.mpr hc

/-- Distinct present labels have distinct indices. -/
theorem colIdx_ne (cols : List String) (a c : String) (ha : a ∈ cols)
    (hc : c ∈ cols) (hne : a ≠ c) : colIdx cols a ≠ colIdx cols c :=
  fun heq => hne ((List.indexOf_inj ha hc).mp heq)

/-- One `df[a] = v` assignment leaves every other present column's cell
of a (long enough) row unchanged. -/
theorem cellOf_step_preserve (cols₀ : List String) (c : String)
    (hc : c ∈ cols₀) (cs : List String) (r : List PyVal)
    (ext : List String) (hcs : cs = cols₀ ++ ext) (hr : r.length = cs.length)
    (a : String) (ha : a ≠ c) (v : PyVal) :
    cellOf (stepCols cs a) (stepRow cs r a v) c = cellOf cs r c := by
  have hcmem : c ∈ cs := hcs ▸ List.mem_append_left ext hc
  unfold stepCols stepRow cellOf
  by_cases hin : cs.contains a = true
  · rw [if_pos hin, if_pos hin,
      List.getElem?_set_ne
        (colIdx_ne cs a c ((contains_iff_mem cs a).mp hin) hcmem ha)]
  · rw [if_neg hin, if_neg hin, colIdx_append cs [a] c hcmem,
      List.getElem?_append]
    rw [if_pos]
    rw [hr]
    exact colIdx_lt cs c hcmem

/-- One assignment step keeps the original columns as a prefix and the
row exactly as long as the column list. -/
theorem step_invariants (cols₀ ext cs : List String)
    (hcs : cs = cols₀ ++ ext) (r : List PyVal) (hr : r.length = cs.length)
    (a : String) (v : PyVal) :
    (∃ ext2, stepCols cs a = cols₀ ++ ext2)
  ∧ (stepRow cs r a v).length = (stepCols cs a).length := by
  unfold stepCols stepRow
  by_cases hin : cs.contains a = true
  · rw [if_pos hin, if_pos hin]
    exact ⟨⟨ext, hcs⟩, by rw [List.length_set]; exact hr⟩
  · rw [if_neg hin, if_neg hin]
    refine ⟨⟨ext ++ [a], by rw [hcs, List.append_assoc]⟩, ?_⟩
    rw [List.length_append, List.length_append, hr]
    rfl

/-- Through a whole original-read pipeline, the cell of a present column
not named by any attribute is unchanged. -/
theorem rowFoldO_cell_preserved
    (g : String × List Rule → List PyVal → PyVal) (row₀ : List PyVal)
    (cols₀ : List String) (c : String) (hc : c ∈ cols₀) :
    ∀ (cfg : List (String × List Rule)), (∀ ar ∈ cfg, ar.1 ≠ c) →
    ∀ (cs : List String) (r : List PyVal) (ext : List String),
      cs = cols₀ ++ ext → r.length = cs.length →
      cellOf (cfg.foldl (rowStepO g row₀) (cs, r)).1
             (cfg.foldl (rowStepO g row₀) (cs, r)).2 c
        = cellOf cs r c := by
  intro cfg
  induction cfg with
  | nil =>
    intro _ cs r ext hcs hr
    rfl
  | cons ar cfg ih =>
    intro hcfg cs r ext hcs hr
    rw [List.foldl_cons]
    obtain ⟨⟨ext2, hcs2⟩, hr2⟩ :=
      step_invariants cols₀ ext cs hcs r hr ar.1 (g ar row₀)
    have hstep : rowStepO g row₀ (cs, r) ar
        = (stepCols cs ar.1, stepRow cs r ar.1 (g ar row₀)) := rfl
    rw [hstep, ih (fun x hx => hcfg x (List.mem_cons_of_mem ar hx))
      (stepCols cs ar.1) (stepRow cs r ar.1 (g ar row₀)) ext2 hcs2 hr2]
    exact cellOf_step_preserve cols₀ c hc cs r ext hcs hr ar.1
      (hcfg ar (List.mem_cons_self ar cfg)) (g ar row₀)

/-- The column component of the per-row fold is the column fold. -/
theorem rowFold_fst (g : String × List Rule → List PyVal → PyVal)
    (row₀ : List PyVal) :
    ∀ (cfg : List (String × List Rule)) (cs : List String)
      (r : List PyVal),
    (cfg.foldl (rowStepO g row₀) (cs, r)).1 = foldCols cfg cs := by
  intro cfg
  induction cfg with
  | nil =>
    intro cs r
    rfl
  | cons ar cfg ih =>
    intro cs r
    rw [List.foldl_cons]
    exact ih (stepCols cs ar.1) (stepRow cs r ar.1 (g ar row₀))

/-- The whole pipeline only ever appends column labels. -/
theorem foldCols_ext :
    ∀ (cfg : List (String × List Rule)) (cols : List String),
    ∃ ext, foldCols cfg cols = cols ++ ext := by
  intro cfg
  induction cfg with
  | nil =>
    intro cols
    exact ⟨[], by simp [foldCols]⟩
  | cons ar cfg ih =>
    intro cols
    show ∃ ext, foldCols cfg (stepCols cols ar.1) = cols ++ ext
    unfold stepCols
    by_cases hin : cols.contains ar.1 = true
    · rw [if_pos hin]
      exact ih cols
    · rw [if_neg hin]
      obtain ⟨ext, hext⟩ := ih (cols ++ [ar.1])
      exact ⟨[ar.1] ++ ext, by rw [hext, List.append_assoc]⟩

/-- With distinct attribute names disjoint from the existing columns,
the pipeline appends exactly the attribute names, in order. -/
theorem foldCols_of_disjoint :
    ∀ (cfg : List (String × List Rule)) (cols : List String),
    (cfg.map Prod.fst).Nodup →
    (∀ a ∈ cfg.map Prod.fst, a ∉ cols) →
    foldCols cfg cols = cols ++ cfg.map Prod.fst := by
  intro cfg
  induction cfg with
  | nil =>
    intro cols _ _
    simp [foldCols]
  | cons ar cfg ih =>
    intro cols hnd hdisj
    have ha : ar.1 ∉ cols :=
      hdisj ar.1 (by rw [List.map_cons]; exact List.mem_cons_self _ _)
    have hin : cols.contains ar.1 = false := by
      rw [← Bool.not_eq_true]
      exact fun h => ha ((contains_iff_mem cols ar.1).mp h)
    show foldCols cfg (stepCols cols ar.1) = cols ++ (ar.1 :: cfg.map Prod.fst)
    unfold stepCols
    rw [hin]
    simp only [Bool.false_eq_true, if_false]
    rw [List.map_cons] at hnd
    have hnd2 := List.nodup_cons.mp hnd
    rw [ih (cols ++ [ar.1]) hnd2.2 ?hdisj2, List.append_assoc]
    · rfl
    case hdisj2 =>
      intro a hamem
      rw [List.mem_append, List.mem_singleton]
      rintro (hcols | heq)
      · exact hdisj a (by rw [List.map_cons]; exact List.mem_cons_of_mem _ hamem) hcols
      · exact hnd2.1 (heq ▸ hamem)

/-! ## Agreement of the batch fold with the original-read fold -/

/-- While no attribute is named `Descrição`, the batch fold — which reads
the description from the evolving row — computes exactly what the
original-read fold computes, because the description cell is never
touched. -/
theorem rowFold_agree (cols₀ : List String) (hdesc : "Descrição" ∈ cols₀)
    (row₀ : List PyVal) :
    ∀ (cfg : List (String × List Rule)),
      (∀ ar ∈ cfg, ar.1 ≠ "Descrição") →
    ∀ (cs : List String) (r : List PyVal) (ext : List String),
      cs = cols₀ ++ ext → r.length = cs.length →
      cellOf cs r "Descrição" = cellOf cols₀ row₀ "Descrição" →
      cfg.foldl rowStepL (cs, r)
        = cfg.foldl (rowStepO (attrValA cols₀) row₀) (cs, r) := by
  intro cfg
  induction cfg with
  | nil =>
    intro _ cs r ext _ _ _
    rfl
  | cons ar cfg ih =>
    intro hcfg cs r ext hcs hr hcell
    rw [List.foldl_cons, List.foldl_cons]
    have ha : ar.1 ≠ "Descrição" := hcfg ar (List.mem_cons_self ar cfg)
    have hval : attrValA cs ar r = attrValA cols₀ ar row₀ := by
      unfold attrValA descrText
      rw [hcell]
    have hstep : rowStepL (cs, r) ar
        = rowStepO (attrValA cols₀) row₀ (cs, r) ar := by
      unfold rowStepL rowStepO
      rw [hval]
    obtain ⟨⟨ext2, hcs2⟩, hr2⟩ :=
      step_invariants cols₀ ext cs hcs r hr ar.1 (attrValA cols₀ ar row₀)
    have hcell2 :
        cellOf (stepCols cs ar.1)
          (stepRow cs r ar.1 (attrValA cols₀ ar row₀)) "Descrição"
          = cellOf cols₀ row₀ "Descrição" := by
      rw [cellOf_step_preserve cols₀ "Descrição" hdesc cs r ext hcs hr ar.1
        ha (attrValA cols₀ ar row₀)]
      exact hcell
    rw [hstep]
    exact ih (fun x hx => hcfg x (List.mem_cons_of_mem ar hx))
      (stepCols cs ar.1) (stepRow cs r ar.1 (attrValA cols₀ ar row₀))
      ext2 hcs2 hr2 hcell2

/-! ## C8 — batched versus direct: amended equivalence -/

/-- C8 (amended): on a well-formed data table with at least one row and
a `Descrição` column, and for a configuration none of whose attribute
groups is named `Descrição`, the batched implementation with any
positive batch size returns exactly the table of the direct
implementation.  The two exceptions forced by the counterexample — an
empty data table, where the batched loop yields a column-less empty
frame, and an attribute named `Descrição`, which the batched loop
overwrites before reading while the direct one reads the original —
are excluded by hypothesis. -/
theorem spec_C8_amended (data config : Table) (n : Nat) (hn : 0 < n)
    (hwf : data.WF) (hdesc : "Descrição" ∈ data.cols)
    (hne : data.rows ≠ [])
    (hattr : ∀ ar ∈ groupTheConfig patternsA config, ar.1 ≠ "Descrição") :
    processar_em_lotes_otimizado data config n
      = processamento_direto_otimizado data config := by
  have hagree : ∀ row ∈ data.rows,
      ((groupTheConfig patternsA config).foldl rowStepL (data.cols, row)).2
        = ((groupTheConfig patternsA config).foldl
            (rowStepO (attrValA data.cols) row) (data.cols, row)).2 := by
    intro row hrow
    rw [rowFold_agree data.cols hdesc row (groupTheConfig patternsA config)
      hattr data.cols row [] (by simp) (hwf row hrow) rfl]
  rw [direto_char]
  unfold processar_em_lotes_otimizado
  rw [chunksOf_cons n hn data.rows hne, List.map_cons]
  simp only [concatTables, processLote_char, List.flatMap_cons,
    List.flatMap_map]
  rw [chunksOf_flatMap_map n hn _ (data.rows.drop n), ← List.map_append,
    List.take_append_drop]
  exact congrArg _ (List.map_congr_left hagree)

/-- A data table with two rows. -/
def twoRowData : Table :=
  ⟨["ID", "Descrição"],
   [[.int 1, .str "110 biv"], [.int 2, .str "220v"]]⟩

/-- A two-rule `Voltagem` configuration. -/
def voltagemConfig : Table :=
  ⟨["Atributo", "Variação", "Padrão de reconhecimento"],
   [[.str "Voltagem", .str "110v", .str "110,110v,127"],
    [.str "Voltagem", .str "Bivolt", .str "bivolt,biv"]]⟩

/-- Witness for the amended C8: two data rows, batch size 1 (two
batches), a configuration with no attribute named `Descrição`. -/
theorem spec_C8_amended_witness :
    processar_em_lotes_otimizado twoRowData voltagemConfig 1
      = processamento_direto_otimizado twoRowData voltagemConfig :=
  spec_C8_amended twoRowData voltagemConfig 1 (by decide) (by decide)
    (by decide) (by decide) (by decide)

/-! ## C9 — pass-through columns: amended frame property -/

/-- A successful `processar_dados` run presupposes both schemas. -/
theorem processar_dados_valid (data config : Table) (t : Table)
    (hok : processar_dados data config = Except.ok t) :
    requiredDataCols.all (fun x => data.cols.contains x) = true
  ∧ requiredConfigCols.all (fun x => config.cols.contains x) = true := by
  by_cases hA : requiredDataCols.all (fun x => data.cols.contains x) = true
  · by_cases hB :
        requiredConfigCols.all (fun x => config.cols.contains x) = true
    · exact ⟨hA, hB⟩
    · unfold processar_dados at hok
      rw [if_pos hA, if_neg hB] at hok
      exact Except.noConfusion hok
  · unfold processar_dados at hok
    rw [if_neg hA] at hok
    exact Except.noConfusion hok

/-- C9 (amended): a successful `processar_dados` run keeps every input
row, in order (same row count, cells read off the same original rows);
it only ever appends column labels; and every original column whose
name is not one of the attribute groups keeps its value in every row.
The exception forced by the counterexample — an attribute named like an
original column overwrites that column in place — is excluded per
column by hypothesis. -/
theorem spec_C9_amended (data config : Table) (t : Table) (hwf : data.WF)
    (hok : processar_dados data config = Except.ok t) :
    t.rows.length = data.rows.length
  ∧ (∃ ext, t.cols = data.cols ++ ext)
  ∧ (∀ c, c ∈ data.cols →
      (∀ ar ∈ groupTheConfig patternsR config, ar.1 ≠ c) →
      ∀ i, t.cell i c = data.cell i c) := by
  obtain ⟨hA, hB⟩ := processar_dados_valid data config t hok
  have hchar := processar_dados_char data config
    ((allContains_iff _ _).mp hA) ((allContains_iff _ _).mp hB)
  rw [hok] at hchar
  have ht := Except.ok.inj hchar
  refine ⟨?_, ?_, ?_⟩
  · rw [ht]
    exact List.length_map _ _
  · rw [ht]
    exact foldCols_ext (groupTheConfig patternsR config) data.cols
  · intro c hc hnc i
    rw [ht]
    unfold Table.cell
    rw [List.getElem?_map]
    cases hrow : data.rows[i]? with
    | none => rfl
    | some row =>
      have hrowmem : row ∈ data.rows := List.mem_iff_getElem?.mpr ⟨i, hrow⟩
      show some (cellOf (foldCols (groupTheConfig patternsR config) data.cols)
          (((groupTheConfig patternsR config).foldl
            (rowStepO (attrValR data.cols) row) (data.cols, row)).2) c)
        = some (cellOf data.cols row c)
      rw [← rowFold_fst (attrValR data.cols) row
        (groupTheConfig patternsR config) data.cols row]
      rw [rowFoldO_cell_preserved (attrValR data.cols) row data.cols c hc
        (groupTheConfig patternsR config) hnc data.cols row []
        (by simp) (hwf row hrowmem)]

/-- The result table of the spec's example scenario. -/
def specExampleResult : Table :=
  ⟨["ID", "Descrição", "Cor", "Voltagem"],
   [[.int 1414, .str "Ventilador de teto 110 amarelo biv",
     .str "Amarelo", .str "110v, Bivolt"]]⟩

/-- Witness for the amended C9: `ID` is not an attribute of the example
configuration, so its cell survives the example run unchanged. -/
theorem spec_C9_amended_witness :
    specExampleResult.cell 0 "ID" = specExampleData.cell 0 "ID" :=
  (spec_C9_amended specExampleData specExampleConfig specExampleResult
      (by decide) (by rfl)).2.2 "ID" (by decide) (by decide) 0

/-! ## C2 — missing description: amended behaviour -/

/-- If no rule of the list fires, the fold adds nothing. -/
theorem mvFold_of_inert (step : Str → Str → Bool) (d : Str) :
    ∀ (rules : List Rule) (acc : List String),
      (∀ r ∈ rules, r.patterns.any (step d) = false) →
      rules.foldl (mvStep step d) acc = acc := by
  intro rules
  induction rules with
  | nil =>
    intro acc _
    rfl
  | cons r rs ih =>
    intro acc hin
    rw [List.foldl_cons]
    have hstep : mvStep step d acc r = acc := by
      unfold mvStep
      rw [hin r (List.mem_cons_self r rs)]
      simp
    rw [hstep]
    exact ih acc fun x hx => hin x (List.mem_cons_of_mem r hx)

/-- C2 (amended): a missing (`NaN`) description is coerced to the
literal text `"nan"` and matched like any other text — so every derived
cell is empty precisely when no configured rule matches the word `"nan"`
(the counterexample shows a rule with pattern `"nan"` does fill the
cell) — and a missing description never causes an error: with valid
schemas `processar_dados` returns a table. -/
theorem spec_C2_amended (cols : List String) (row : List PyVal)
    (h : cellOf cols row "Descrição" = PyVal.vNone) :
    descrText cols row = "nan".data
  ∧ (∀ rules : List Rule,
      (∀ r ∈ rules, r.patterns.any (matchStepR "nan".data) = false) →
      cellString matchStepR rules (descrText cols row) = "")
  ∧ (∀ data config : Table,
      (∀ x ∈ requiredDataCols, x ∈ data.cols) →
      (∀ x ∈ requiredConfigCols, x ∈ config.cols) →
      ∃ t, processar_dados data config = Except.ok t) := by
  have hd : descrText cols row = "nan".data := by
    unfold descrText
    rw [h]
    decide
  refine ⟨hd, ?_, ?_⟩
  · intro rules hrules
    rw [hd]
    unfold cellString matchedVariations
    rw [mvFold_of_inert matchStepR "nan".data rules [] hrules]
    rfl
  · intro data config h1 h2
    exact processar_dados_isOk data config h1 h2

/-- Witness for the amended C2: the single `Voltagem` rule set does not
match the word `"nan"`, so the cell of a missing description is empty. -/
theorem spec_C2_amended_witness :
    descrText ["ID", "Descrição"] [.int 7, .vNone] = "nan".data
  ∧ cellString matchStepR [⟨"110v", patternsR "110,110v,127"⟩]
      (descrText ["ID", "Descrição"] [.int 7, .vNone]) = "" :=
  ⟨(spec_C2_amended ["ID", "Descrição"] [.int 7, .vNone] (by decide)).1,
   (spec_C2_amended ["ID", "Descrição"] [.int 7, .vNone] (by decide)).2.1
     [⟨"110v", patternsR "110,110v,127"⟩] (by decide)⟩

/-! ## Order facts about the sorted grouping -/

/-- Strict lexicographic order is irreflexive. -/
theorem lexLtB_irrefl : ∀ a : Str, lexLtB a a = false := by
  intro a
  induction a with
  | nil => rfl
  | cons x xs ih =>
    show (charLtB x x || (x == x && lexLtB xs xs)) = false
    simp [charLtB, ih]

/-- Strict lexicographic order is transitive. -/
theorem lexLtB_trans : ∀ a b c : Str,
    lexLtB a b = true → lexLtB b c = true → lexLtB a c = true := by
  intro a
  induction a with
  | nil =>
    intro b c hab hbc
    cases b with
    | nil => exact absurd hab (by simp [lexLtB])
    | cons y ys =>
      cases c with
      | nil => exact absurd hbc (by simp [lexLtB])
      | cons z zs => rfl
  | cons x xs ih =>
    intro b c hab hbc
    cases b with
    | nil => exact absurd hab (by simp [lexLtB])
    | cons y ys =>
      cases c with
      | nil => exact absurd hbc (by simp [lexLtB])
      | cons z zs =>
        show (charLtB x z || (x == z && lexLtB xs zs)) = true
        rw [show lexLtB (x :: xs) (y :: ys)
            = (charLtB x y || (x == y && lexLtB xs ys)) from rfl,
          Bool.or_eq_true, Bool.and_eq_true] at hab
        rw [show lexLtB (y :: ys) (z :: zs)
            = (charLtB y z || (y == z && lexLtB ys zs)) from rfl,
          Bool.or_eq_true, Bool.and_eq_true] at hbc
        rcases hab with h1 | ⟨h1e, h1l⟩
    <;> rcases hbc with h2 | ⟨h2e, h2l⟩
        · have : charLtB x z = true := by
            unfold charLtB at h1 h2 ⊢
            have hx := of_decide_eq_true h1
            have hy := of_decide_eq_true h2
            exact decide_eq_true (Nat.lt_trans hx hy)
          simp [this]
        · have hyz : y = z := eq_of_beq h2e
          subst hyz
          simp [h1]
        · have hxy : x = y := eq_of_beq h1e
          subst hxy
          simp [h2]
        · have hxy : x = y := eq_of_beq h1e
          have hyz : y = z := eq_of_beq h2e
          subst hxy
          subst hyz
          simp [ih ys zs h1l h2l]

/-- Strict lexicographic order is total on distinct texts. -/
theorem lexLtB_connex : ∀ a b : Str, a ≠ b →
    lexLtB a b = true ∨ lexLtB b a = true := by
  intro a
  induction a with
  | nil =>
    intro b hne
    cases b with
    | nil => exact absurd rfl hne
    | cons y ys => exact Or.inl rfl
  | cons x xs ih =>
    intro b hne
    cases b with
    | nil => exact Or.inr rfl
    | cons y ys =>
      rcases Nat.lt_trichotomy x.toNat y.toNat with h | h | h
      · exact Or.inl (by simp [lexLtB, charLtB, h])
      · have hxy : x = y := Char.ext (UInt32.ext h)
        subst hxy
        have hys : xs ≠ ys := fun hh => hne (by rw [hh])
        rcases ih ys hys with h2 | h2
        · exact Or.inl (by simp [lexLtB, charLtB, h2])
        · exact Or.inr (by simp [lexLtB, charLtB, h2])
      · exact Or.inr (by simp [lexLtB, charLtB, h])

/-- The non-strict key order produced by the insertion sort: the second
key is not lexicographically smaller than the first. -/
def keyLeB (a b : String) : Prop := strLtB b a = false

/-- `keyLeB` is transitive. -/
theorem keyLeB_trans : ∀ a b c : String,
    keyLeB a b → keyLeB b c → keyLeB a c := by
  intro a b c hab hbc
  unfold keyLeB strLtB at hab hbc ⊢
  cases hval : lexLtB c.data a.data with
  | false => rfl
  | true =>
    exfalso
    by_cases hcb : c.data = b.data
    · rw [hcb] at hval
      rw [hval] at hab
      exact Bool.noConfusion hab
    · rcases lexLtB_connex c.data b.data hcb with h | h
      · rw [h] at hbc
        exact Bool.noConfusion hbc
      · have : lexLtB b.data a.data = true := lexLtB_trans _ _ _ h hval
        rw [this] at hab
        exact Bool.noConfusion hab

/-- The insertion step permutes the inserted element to the front. -/
theorem insertKey_perm (x : String) (l : List String) :
    List.Perm (insertKey x l) (x :: l) := by
  induction l with
  | nil => exact List.Perm.refl _
  | cons y ys ih =>
    unfold insertKey
    by_cases hy : strLtB y x = true
    · rw [if_pos hy]
      exact (ih.cons y).trans (List.Perm.swap x y ys)
    · rw [if_neg hy]

/-- The key sort is a permutation. -/
theorem sortStrs_perm (l : List String) : List.Perm (sortStrs l) l := by
  induction l with
  | nil => exact List.Perm.refl _
  | cons x xs ih => exact (insertKey_perm x (sortStrs xs)).trans (ih.cons x)

/-- The insertion step preserves ascending order. -/
theorem pairwise_insertKey (x : String) (l : List String)
    (h : l.Pairwise keyLeB) : (insertKey x l).Pairwise keyLeB := by
  induction l with
  | nil => simp [insertKey, List.pairwise_cons]
  | cons y ys ih =>
    rw [List.pairwise_cons] at h
    unfold insertKey
    by_cases hy : strLtB y x = true
    · rw [if_pos hy]
      rw [List.pairwise_cons]
      refine ⟨?_, ih h.2⟩
      intro z hz
      have hz2 : z ∈ x :: ys := (insertKey_perm x ys).mem_iff.mp hz
      rcases List.mem_cons.mp hz2 with rfl | hzys
      · show strLtB z y = false
        unfold strLtB at hy ⊢
        cases hval : lexLtB z.data y.data with
        | false => rfl
        | true =>
          exfalso
          have : lexLtB y.data y.data = true := lexLtB_trans _ _ _ hy hval
          rw [lexLtB_irrefl y.data] at this
          exact Bool.noConfusion this
      · exact h.1 z hzys
    · rw [if_neg hy]
      have hxy : keyLeB x y := by
        unfold keyLeB
        exact Bool.of_not_eq_true hy
      rw [List.pairwise_cons]
      refine ⟨?_, List.pairwise_cons.mpr h⟩
      intro z hz
      rcases List.mem_cons.mp hz with rfl | hzys
      · exact hxy
      · exact keyLeB_trans x y z hxy (h.1 z hzys)

/-- The key sort is ascending. -/
theorem sortStrs_pairwise (l : List String) :
    (sortStrs l).Pairwise keyLeB := by
  induction l with
  | nil => exact List.Pairwise.nil
  | cons x xs ih => exact pairwise_insertKey x (sortStrs xs) ih

/-- The first-seen deduplication produces distinct keys. -/
theorem uniqueKeys_nodup (l : List String) : (uniqueKeys l).Nodup := by
  suffices h : ∀ (l acc : List String), acc.Nodup →
      (l.foldl (fun acc k => if acc.contains k then acc else acc ++ [k])
        acc).Nodup by
    exact h l [] List.nodup_nil
  intro l
  induction l with
  | nil =>
    intro acc h
    exact h
  | cons k ks ih =>
    intro acc h
    rw [List.foldl_cons]
    apply ih
    by_cases hk : acc.contains k = true
    · rw [if_pos hk]
      exact h
    · rw [if_neg hk]
      have hnm : k ∉ acc := fun hm => hk ((contains_iff_mem acc k).mpr hm)
      simp [List.nodup_append, h, hnm]

/-- The attribute keys are distinct. -/
theorem attrKeys_nodup (config : Table) : (attrKeys config).Nodup :=
  (sortStrs_perm _).nodup_iff.mpr
    (uniqueKeys_nodup (config.rows.map (attrTextOf config.cols)))

/-- The group list is keyed exactly by the sorted distinct attributes. -/
theorem groupTheConfig_map_fst (parse : String → List Str)
    (config : Table) :
    (groupTheConfig parse config).map Prod.fst = attrKeys config := by
  unfold groupTheConfig
  rw [List.map_map]
  exact List.map_id _

/-! ## C1 — column order: amended statement -/

/-- C1 (amended): rows are grouped by `Atributo` preserving the original
row order inside each group, but the distinct attribute values are
iterated in ascending lexicographic order — pandas `groupby` defaults to
`sort=True` — not in first-seen order; accordingly, when the attribute
names collide with no data column, both `processar_dados` and
`processamento_direto_otimizado` append one column per distinct
attribute in that ascending order. -/
theorem spec_C1_amended (data config : Table) (t : Table)
    (hok : processar_dados data config = Except.ok t)
    (hdisj : ∀ a ∈ attrKeys config, a ∉ data.cols) :
    t.cols = data.cols ++ attrKeys config
  ∧ (processamento_direto_otimizado data config).cols
      = data.cols ++ attrKeys config
  ∧ (attrKeys config).Nodup
  ∧ (attrKeys config).Pairwise keyLeB
  ∧ List.Perm (attrKeys config)
      (uniqueKeys (config.rows.map (attrTextOf config.cols)))
  ∧ (∀ k rules, (k, rules) ∈ groupTheConfig patternsR config →
      rules = (config.rows.filter
          fun r => attrTextOf config.cols r == k).map
        (ruleOfRow patternsR config.cols)) := by
  have hfold : ∀ parse : String → List Str,
      foldCols (groupTheConfig parse config) data.cols
        = data.cols ++ attrKeys config := by
    intro parse
    rw [foldCols_of_disjoint (groupTheConfig parse config) data.cols
        (by rw [groupTheConfig_map_fst]; exact attrKeys_nodup config)
        (by rw [groupTheConfig_map_fst]; exact hdisj),
      groupTheConfig_map_fst]
  obtain ⟨hA, hB⟩ := processar_dados_valid data config t hok
  have hchar := processar_dados_char data config
    ((allContains_iff _ _).mp hA) ((allContains_iff _ _).mp hB)
  rw [hok] at hchar
  have ht := Except.ok.inj hchar
  refine ⟨?_, ?_, attrKeys_nodup config, sortStrs_pairwise _,
    sortStrs_perm _, ?_⟩
  · rw [ht]
    exact hfold patternsR
  · rw [direto_char]
    exact hfold patternsA
  · intro k rules hmem
    unfold groupTheConfig at hmem
    rcases List.mem_map.mp hmem with ⟨k2, _, heq⟩
    have hk : k2 = k := congrArg Prod.fst heq
    subst hk
    exact (congrArg Prod.snd heq).symm

/-- Witness for the amended C1 at the spec's example scenario: the
appended columns are `Cor`, then `Voltagem` — ascending order. -/
theorem spec_C1_amended_witness :
    specExampleResult.cols
      = specExampleData.cols ++ attrKeys specExampleConfig :=
  (spec_C1_amended specExampleData specExampleConfig specExampleResult
      (by rfl) (by decide)).1

end SistemaAtributos
